import Mathlib

/-!
Shallow embedding of the admixture-estimation core of pcangsd
(`admixture.py`): the mini-batch multiplicative-update NMF engine
(`admixNMF`), its update kernels (`updateF`, `updateQ`), the acceleration
inner loops, the batch/chunk scheduler, the parallel log-likelihood
reduction (`logLike_admixInner` / `logLike_admix`) and the adaptive
regularization search (`alphaSearch`).

Modelling conventions:
* numpy float32/float64 arithmetic is embedded as exact rational
  arithmetic (`ℚ`); matrices are total functions `ℕ → ℕ → ℚ` read on the
  index ranges given by the explicit dimension arguments;
* the random draws of `admixNMF` (`np.random.permutation(n)` and
  `np.random.rand(m, K)`) are passed in as explicit oracle parameters
  `shuffle` and `Q0`, so theorems quantify over every possible draw;
* the external numeric helpers `frobenius` and `rmse2d_float32`
  (imported from `helpFunctions`, outside this repository) and `math.log`
  are passed in as oracle function parameters `frob`, `rmse` and `flog`;
  the statements proved below hold for every instantiation of them;
* in Python 2, `/` on integers is floor division: the step-budget
  formulas `pF`, `pQ` use `ℕ` division.
-/

namespace PCAngsd

/-- Matrices are total functions on `ℕ × ℕ`; the meaningful entries are the
ones below the dimension bounds carried alongside. -/
abbrev Mat : Type := ℕ → ℕ → ℚ

/-- The clamping epsilon `1e-4` used by both update kernels. -/
def eps : ℚ := 1 / 10000

/-- `A * B` with inner dimension `p`: entry `(i, j)` is
`sum over k < p of A i k * B k j`. -/
def matMulN (p : ℕ) (A B : Mat) : Mat :=
  fun i j => ∑ k ∈ Finset.range p, A i k * B k j

/-- Matrix transpose. -/
def transposeM (A : Mat) : Mat := fun i j => A j i

/-! ### Batch / chunk scheduler (admixture.py lines 76-82) -/

/-- `int(np.ceil(float(a) / b))` for natural `a`, `b ≥ 1`. -/
def ceilN (a b : ℕ) : ℕ := (a + b - 1) / b

/-- `np.arange(0, stop, step)`: the multiples of `step` below `stop`. -/
def arangeL (stop step : ℕ) : List ℕ :=
  (List.range (ceilN stop step)).map (· * step)

/-- The site block starting at `b`: indices `[b, min (b + bN) n)`, as in
`Xbatch = X[:, b:bEnd]` with `bEnd = min(b + batch_N, n)`. -/
def blockIdx (n bN b : ℕ) : List ℕ := List.range' b (min (b + bN) n - b)

/-- Thread chunk starts `[i * chunk_N for i in xrange(threads)]`. -/
def chunkStarts (threads chunkN : ℕ) : List ℕ :=
  (List.range threads).map (· * chunkN)

/-! ### Multiplicative-update kernels (admixture.py lines 43-59) -/

/-- `updateF`: `F[s,k] *= A[s,k]/FB[s,k]` followed by the clamp
`max(·, 1e-4)` then `min(·, 1-1e-4)`, elementwise. -/
def updateF (F A FB : Mat) : Mat :=
  fun s k => min (max (F s k * (A s k / FB s k)) eps) (1 - eps)

/-- `updateQ`: `Q[i,k] *= A[i,k]/(QB[i,k] + alpha)` followed by the clamp
`max(·, 1e-4)` then `min(·, 1-1e-4)`, elementwise. -/
def updateQ (Q A QB : Mat) (alpha : ℚ) : Mat :=
  fun i k => min (max (Q i k * (A i k / (QB i k + alpha))) eps) (1 - eps)

/-- `Q /= np.sum(Q, axis=1, keepdims=True)`: divide each entry by its row
sum over the `K` meaningful columns. -/
def normalizeRows (K : ℕ) (Q : Mat) : Mat :=
  fun i k => Q i k / ∑ j ∈ Finset.range K, Q i j

/-! ### Acceleration inner loop (admixture.py lines 97-119) -/

/-- Inner step budget for the F-update in a batch with `nb` columns:
`pF = 2*(1 + (m*nInner + m*K)/(nInner*K + nInner))`, Python 2 integer
division. -/
def pF (m nb K : ℕ) : ℕ := 2 * (1 + (m * nb + m * K) / (nb * K + nb))

/-- Inner step budget for the Q-update:
`pQ = 2*(1 + (m*nInner + nInner*K)/(m*K + m))`, Python 2 integer
division. -/
def pQ (m nb K : ℕ) : ℕ := 2 * (1 + (m * nb + nb * K) / (m * K + m))

/-- Steps `1, 2, ...` of the acceleration loop, after the first step
recorded the change norm `dInit`: apply the kernel, measure the change,
and stop once the change is `≤ 0.1 * dInit`.  Returns the final state and
the list of change norms of the performed steps. -/
def accelAux {σ : Type} (step : σ → σ) (norm : σ → σ → ℚ) (dInit : ℚ) :
    ℕ → σ → σ × List ℚ
  | 0, x => (x, [])
  | fuel + 1, x =>
    let x' := step x
    let d := norm x' x
    if d ≤ (1 / 10) * dInit then (x', [d])
    else
      let r := accelAux step norm dInit fuel x'
      (r.1, d :: r.2)

/-- The acceleration loop `for inner in xrange(p)`: the first step records
`dInit = frobenius(new, prev)`; subsequent steps break once the change is
`≤ 0.1 * dInit`.  Returns the final state and the change norms of all
performed steps (so `.2.length` is the number of kernel applications). -/
def accelLoop {σ : Type} (step : σ → σ) (norm : σ → σ → ℚ) :
    ℕ → σ → σ × List ℚ
  | 0, x => (x, [])
  | p + 1, x =>
    let x' := step x
    let d := norm x' x
    let r := accelAux step norm d p x'
    (r.1, d :: r.2)

/-! ### Factor initialization (admixture.py lines 71-74) -/

/-- `np.linalg.inv` on the leading `K × K` block, via the adjugate formula
(exact inverse whenever the block is invertible over `ℚ`). -/
def matInvK (K : ℕ) (A : Mat) : Mat :=
  let T : Matrix (Fin K) (Fin K) ℚ := fun i j => A i.1 j.1
  let I : Matrix (Fin K) (Fin K) ℚ := (T.det)⁻¹ • T.adjugate
  fun i j => if h : i < K ∧ j < K then I ⟨i, h.1⟩ ⟨j, h.2⟩ else 0

/-- `F = np.dot(np.dot(np.linalg.inv(np.dot(Q.T, Q)), Q.T), X).T`:
least-squares fit of the shuffled `X` onto the initial `Q`
(normal equations). -/
def initF (m K : ℕ) (Q X : Mat) : Mat :=
  transposeM (matMulN m (matMulN K (matInvK K (matMulN m (transposeM Q) Q))
    (transposeM Q)) X)

/-! ### One batch of the SG-MU sweep (admixture.py lines 86-119) -/

/-- Process the batch starting at column `b`: run the accelerated F-update
on the row slice `F[b:bEnd]` (a view written back into `F`), then the
accelerated Q-update followed by row renormalization on all of `Q`. -/
def sweepBatch (m n K : ℕ) (alpha : ℚ) (frob : Mat → Mat → ℕ → ℕ → ℚ)
    (X : Mat) (bN b : ℕ) (QF : Mat × Mat) : Mat × Mat :=
  let Q := QF.1
  let F := QF.2
  let bEnd := min (b + bN) n
  let nb := bEnd - b
  let Xb : Mat := fun i j => X i (b + j)
  let Fb : Mat := fun s k => F (b + s) k
  let A := matMulN m (transposeM Xb) Q
  let B := matMulN m (transposeM Q) Q
  let Fb' := (accelLoop (fun Fc => updateF Fc A (matMulN K Fc B))
    (fun P C => frob P C nb K) (pF m nb K) Fb).1
  let F' : Mat := fun s k => if b ≤ s ∧ s < bEnd then Fb' (s - b) k else F s k
  let A2 := matMulN nb Xb Fb'
  let B2 := matMulN nb (transposeM Fb') Fb'
  let Q' := (accelLoop
    (fun Qc => normalizeRows K (updateQ Qc A2 (matMulN K Qc B2) alpha))
    (fun P C => frob P C m K) (pQ m nb K) Q).1
  (Q', F')

/-- One full outer iteration: sweep every batch in scheduler order. -/
def sweepAll (m n K : ℕ) (alpha : ℚ) (frob : Mat → Mat → ℕ → ℕ → ℚ)
    (X : Mat) (bN : ℕ) (QF : Mat × Mat) : Mat × Mat :=
  (arangeL n bN).foldl (fun s b => sweepBatch m n K alpha frob X bN b s) QF

/-! ### Outer loop with convergence monitor (admixture.py lines 85-128) -/

/-- The outer SG-MU loop: at most `fuel` iterations; after each sweep
measure `diff = rmse2d_float32(Q, prevQ)` and stop when `diff < tole`,
otherwise set `prevQ` to (a copy of) the current `Q` and continue.
Returns the final `(Q, F)` and the trace of `(diff, Q)` pairs observed by
the convergence monitor, one per performed outer iteration. -/
def outerLoop (sweep : Mat × Mat → Mat × Mat) (rmse : Mat → Mat → ℕ → ℕ → ℚ)
    (m K : ℕ) (tole : ℚ) : ℕ → Mat → Mat × Mat → (Mat × Mat) × List (ℚ × Mat)
  | 0, _, QF => (QF, [])
  | fuel + 1, prevQ, QF =>
    let QF' := sweep QF
    let diff := rmse QF'.1 prevQ m K
    if diff < tole then (QF', [(diff, QF'.1)])
    else
      let r := outerLoop sweep rmse m K tole fuel QF'.1 QF'
      (r.1, (diff, QF'.1) :: r.2)

/-! ### Column un-permutation (admixture.py lines 132-134) -/

/-- `np.argsort(v[0:n])`: the indices `0, …, n-1` sorted (stably) by their
value under `v`. -/
def argsortL (v : ℕ → ℕ) (n : ℕ) : List ℕ :=
  List.insertionSort (fun i j => v i ≤ v j) (List.range n)

/-- Entry `j` of `np.argsort(v[0:n])`. -/
def argsortIdx (v : ℕ → ℕ) (n j : ℕ) : ℕ := (argsortL v n).getD j 0

/-! ### Log-likelihood evaluation (admixture.py lines 16-40) -/

/-- The per-cell Hardy-Weinberg weighted likelihood
`like0 + like1 + like2` of `logLike_admixInner`. -/
def hwLike (likeM Pi : Mat) (ind s : ℕ) : ℚ :=
  likeM (3 * ind) s * (1 - Pi ind s) * (1 - Pi ind s) +
    likeM (3 * ind + 1) s * 2 * Pi ind s * (1 - Pi ind s) +
    likeM (3 * ind + 2) s * Pi ind s * Pi ind s

/-- `logLike_admixInner(likeMatrix, Pi, S, N, L)`: one worker; for every
individual `ind` in `[S, min(S+N, m))` add
`sum over s < n of log(hwLike ind s)` into `L[ind]`.  `m, n` are the
dimensions of `Pi`; `flog` is the oracle for `math.log`. -/
def logLike_admixInner (flog : ℚ → ℚ) (likeM Pi : Mat) (m n S N : ℕ)
    (L : ℕ → ℚ) : ℕ → ℚ :=
  fun ind =>
    if S ≤ ind ∧ ind < min (S + N) m then
      L ind + ∑ s ∈ Finset.range n, flog (hwLike likeM Pi ind s)
    else L ind

/-- `logLike_admix(likeMatrix, Pi, chunks, chunk_N)`: run one worker per
chunk start (each writing its own disjoint slice of the accumulator,
modelled as sequential composition of the disjoint writes), then
`np.sum` the per-individual accumulator over the `m` individuals. -/
def logLike_admix (flog : ℚ → ℚ) (likeM Pi : Mat) (m n : ℕ)
    (chunks : List ℕ) (chunkN : ℕ) : ℚ :=
  let L := chunks.foldl
    (fun L S => logLike_admixInner flog likeM Pi m n S chunkN L) (fun _ => 0)
  ∑ ind ∈ Finset.range m, L ind

/-! ### The full fit (admixture.py lines 62-144) -/

/-- Result of one `admixNMF` fit, together with the internally held `X`
after finalization and the convergence-monitor trace (ghost data used
only by the specification). -/
structure NMFResult where
  Q : Mat
  F : Mat
  logLike : ℚ
  trace : List (ℚ × Mat)
  Xfin : Mat

/-- `admixNMF(X, K, likeMatrix, alpha, iter, tole, seed, batch, threads)`.
The two random draws made from `seed` are the oracle parameters
`shuffle` (`np.random.permutation(n)`) and `Q0` (`np.random.rand(m, K)`);
`frob`, `rmse`, `flog` are the external numeric helpers. -/
def admixNMF (m n K : ℕ) (X likeM : Mat) (alpha : ℚ) (iter : ℕ) (tole : ℚ)
    (shuffle : ℕ → ℕ) (Q0 : Mat) (batch threads : ℕ)
    (frob rmse : Mat → Mat → ℕ → ℕ → ℚ) (flog : ℚ → ℚ) : NMFResult :=
  let Xs : Mat := fun i j => X i (shuffle j)
  let Q1 := normalizeRows K Q0
  let F0 := initF m K Q1 Xs
  let chunkN := ceilN m threads
  let chunks := chunkStarts threads chunkN
  let bN := ceilN n batch
  let r := outerLoop (sweepAll m n K alpha frob Xs bN) rmse m K tole iter Q1
    (Q1, F0)
  let Qf := r.1.1
  let Ff : Mat := fun j k => r.1.2 (argsortIdx shuffle n j) k
  let Xf : Mat := fun i j => Xs i (argsortIdx shuffle n j)
  let Pi : Mat := fun i j =>
    min (max (matMulN K Qf (transposeM Ff) i j) eps) (1 - eps)
  let L := logLike_admix flog likeM Pi m n chunks chunkN
  ⟨Qf, Ff, L, r.2, Xf⟩

/-! ### Alpha search (admixture.py lines 147-218)

`alphaSearch` repeatedly calls `admixNMF` with the same data, seed and
hyper-parameters, varying only `alpha`; each call is therefore a pure
function of `alpha`, modelled by the oracle `run : ℚ → α × ℚ` returning
the `(Q, F)` pair (abstract type `α`) and the log-likelihood.  The state
carries, as ghost data, the list `evald` of every `alpha` at which
`admixNMF` was invoked. -/

/-- Search state of `alphaSearch`: interval `[aMin, aMax]` with midpoint
`aMid` and step `aStep`, the best `(Q, F)` pair and log-likelihood so far,
the index `argL` of the best candidate of the current round, the best
`alpha`, and the ghost list of evaluated `alpha` values. -/
structure SearchState (α : Type) where
  aMin : ℚ
  aMid : ℚ
  aMax : ℚ
  aStep : ℚ
  best : α × ℚ
  argL : ℕ
  aBest : ℚ
  evald : List ℚ

/-- `[aMin, aMid, aMax][argL]`. -/
def pick3 (a b c : ℚ) (i : ℕ) : ℚ := if i = 0 then a else if i = 1 then b else c

/-- Run `admixNMF` at candidate `a` (recorded in the ghost trace) and take
it as the new best exactly when its log-likelihood strictly exceeds the
current best (`if L_test > L_best`). -/
def tryCand {α : Type} (run : ℚ → α × ℚ) (i : ℕ) (a : ℚ)
    (st : SearchState α) : SearchState α :=
  let t := run a
  if st.best.2 < t.2 then
    { st with
      best := t
      argL := i
      aBest := a
      evald := st.evald ++ [a] }
  else { st with evald := st.evald ++ [a] }

/-- The first-round recentering (lines 173-179): if the best was the lower
bound, shrink to `[0, aMid]`; otherwise recenter symmetrically around the
best candidate with the current step. -/
def recenter1 {α : Type} (st : SearchState α) : SearchState α :=
  if st.argL = 0 then { st with aMax := st.aMid, aMid := st.aMid / 2 }
  else
    let c := pick3 st.aMin st.aMid st.aMax st.argL
    { st with aMid := c, aMin := c - st.aStep, aMax := c + st.aStep }

/-- First round (lines 149-179): evaluate `alpha = 0`, the midpoint of
`[0, aEnd]` and `aEnd`, keep the best, then recenter. -/
def searchFirst {α : Type} (run : ℚ → α × ℚ) (aEnd : ℚ) : SearchState α :=
  let aMin : ℚ := 0
  let aMax : ℚ := aEnd
  let aMid : ℚ := (aMin + aMax) / 2
  let aStep : ℚ := (aMin + aMax) / 4
  let t0 := run aMin
  let st0 : SearchState α := ⟨aMin, aMid, aMax, aStep, t0, 0, aMin, [aMin]⟩
  let st1 := tryCand run 1 aMid st0
  let st2 := tryCand run 2 aMax st1
  recenter1 st2

/-- Evaluation phase of one depth round (lines 183-207): when the
interval's lower bound is `0`, test only the midpoint; otherwise test the
lower bound and, only if it did not improve, the upper bound (setting
`argL = 1` when neither improved). -/
def evalRound {α : Type} (run : ℚ → α × ℚ) (st : SearchState α) :
    SearchState α :=
  if st.aMin = 0 then tryCand run 1 st.aMid st
  else
    let t := run st.aMin
    if st.best.2 < t.2 then
      { st with
        best := t
        argL := 0
        aBest := st.aMin
        evald := st.evald ++ [st.aMin] }
    else
      let t2 := run st.aMax
      if st.best.2 < t2.2 then
        { st with
          best := t2
          argL := 2
          aBest := st.aMax
          evald := st.evald ++ [st.aMin, st.aMax] }
      else
        { st with
          argL := 1
          evald := st.evald ++ [st.aMin, st.aMax] }

/-- Recentering phase of one depth round (lines 209-216): halve the step,
then either shrink `[0, aMid]` one-sidedly or recenter symmetrically
around the round's best candidate. -/
def recenterRound {α : Type} (st : SearchState α) : SearchState α :=
  let st2 := { st with aStep := st.aStep / 2 }
  if st2.aMin = 0 then { st2 with aMax := st2.aMid, aMid := st2.aMid / 2 }
  else
    let c := pick3 st2.aMin st2.aMid st2.aMax st2.argL
    { st2 with aMid := c, aMin := c - st2.aStep, aMax := c + st2.aStep }

/-- One depth round (lines 181-216). -/
def searchRound {α : Type} (run : ℚ → α × ℚ) (st : SearchState α) :
    SearchState α :=
  recenterRound (evalRound run st)

/-- The depth loop `for d in range(2, depth+1)`. -/
def searchLoop {α : Type} (run : ℚ → α × ℚ) : ℕ → SearchState α →
    SearchState α
  | 0, st => st
  | d + 1, st => searchLoop run d (searchRound run st)

/-- `alphaSearch(aEnd, depth, ...)`: the final search state; the function
returns `(st.best.1, st.aBest)`, i.e. `Q_best, F_best, aBest`. -/
def alphaSearch {α : Type} (run : ℚ → α × ℚ) (aEnd : ℚ) (depth : ℕ) :
    SearchState α :=
  searchLoop run (depth - 1) (searchFirst run aEnd)

/-! ### Buffer-level model of `admixNMF` (frame effect)

To express which numpy buffers `admixNMF` mutates, the fit is replayed
over an explicit store of array buffers.  Each numpy operation of the
source is classified by its real allocation behaviour: fancy indexing
(`X[:, shuffleX]`, `F[np.argsort(shuffleX)]`, `X[:, np.argsort(shuffleX)]`),
`np.random.rand`, `np.copy`, `np.dot` and arithmetic expressions allocate
fresh buffers; the jitted kernels `updateF` / `updateQ` (through the
views `F[b:bEnd]`), the in-place division `Q /= ...` and
`Pi.clip(out=Pi)` write into an existing buffer.  Numeric contents are
computed by the pure model above.  The caller's `X` and `likeMatrix` live
at the given store indices and are only ever read. -/

/-- A store of numpy array buffers: contents per buffer id, plus the next
fresh id. -/
structure Store where
  mem : ℕ → Mat
  next : ℕ

/-- Allocate a fresh buffer holding `M`; returns the new store and the
buffer id. -/
def salloc (st : Store) (M : Mat) : Store × ℕ :=
  (⟨fun i => if i = st.next then M else st.mem i, st.next + 1⟩, st.next)

/-- Overwrite the contents of buffer `id` in place. -/
def swrite (st : Store) (id : ℕ) (M : Mat) : Store :=
  ⟨fun i => if i = id then M else st.mem i, st.next⟩

/-- One batch of the sweep at the buffer level: the accelerated F-update
writes through the `F[b:bEnd]` view into `F`'s buffer, then the
accelerated Q-update and row renormalization write `Q`'s buffer. -/
def sweepStoreBatch (m n K : ℕ) (alpha : ℚ) (frob : Mat → Mat → ℕ → ℕ → ℚ)
    (xsId fId qId bN : ℕ) (st : Store) (b : ℕ) : Store :=
  let QF := sweepBatch m n K alpha frob (st.mem xsId) bN b
    (st.mem qId, st.mem fId)
  swrite (swrite st fId QF.2) qId QF.1

/-- The outer loop at the buffer level: each iteration sweeps all batches
(mutating `Q`'s and `F`'s buffers), reads `Q` and `prevQ` for the
convergence check, and on continuation allocates a fresh copy for
`prevQ = np.copy(Q)`. -/
def outerStore (sweepS : Store → Store) (rmse : Mat → Mat → ℕ → ℕ → ℚ)
    (m K : ℕ) (tole : ℚ) (qId : ℕ) : ℕ → ℕ → Store → Store
  | 0, _, st => st
  | fuel + 1, pqId, st =>
    let st' := sweepS st
    let diff := rmse (st'.mem qId) (st'.mem pqId) m K
    if diff < tole then st'
    else
      let a := salloc st' (st'.mem qId)
      outerStore sweepS rmse m K tole qId fuel a.2 a.1

/-- `admixNMF` at the buffer level: the caller's `X` and `likeMatrix` are
the buffers `xId` and `lId` of the incoming store.  Returns the final
store and the buffer ids of the returned `Q` and `F` together with the
log-likelihood. -/
def admixNMFStore (st0 : Store) (xId lId : ℕ) (m n K : ℕ) (alpha : ℚ)
    (iter : ℕ) (tole : ℚ) (shuffle : ℕ → ℕ) (Q0 : Mat) (batch threads : ℕ)
    (frob rmse : Mat → Mat → ℕ → ℕ → ℚ) (flog : ℚ → ℚ) :
    Store × ℕ × ℕ × ℚ :=
  let Xs : Mat := fun i j => st0.mem xId i (shuffle j)
  let a1 := salloc st0 Xs
  let xsId := a1.2
  let a2 := salloc a1.1 Q0
  let qId := a2.2
  let st3 := swrite a2.1 qId (normalizeRows K Q0)
  let a4 := salloc st3 (st3.mem qId)
  let pqId := a4.2
  let a5 := salloc a4.1 (initF m K (a4.1.mem qId) (a4.1.mem xsId))
  let fId := a5.2
  let bN := ceilN n batch
  let chunkN := ceilN m threads
  let chunks := chunkStarts threads chunkN
  let sweepS := fun st =>
    (arangeL n bN).foldl (sweepStoreBatch m n K alpha frob xsId fId qId bN) st
  let st6 := outerStore sweepS rmse m K tole qId iter pqId a5.1
  let a7 := salloc st6 (fun j k => st6.mem fId (argsortIdx shuffle n j) k)
  let f2Id := a7.2
  let a8 := salloc a7.1 (fun i j => a7.1.mem xsId i (argsortIdx shuffle n j))
  let a9 := salloc a8.1 (matMulN K (a8.1.mem qId) (transposeM (a8.1.mem f2Id)))
  let piId := a9.2
  let st10 := swrite a9.1 piId
    (fun i j => min (max (a9.1.mem piId i j) eps) (1 - eps))
  let L := logLike_admix flog (st10.mem lId) (st10.mem piId) m n chunks chunkN
  (st10, qId, f2Id, L)

/-! ## Arithmetic facts about the ceiling division of the scheduler -/

lemma ceilN_pos {n B : ℕ} (hn : 1 ≤ n) (hB : 1 ≤ B) : 1 ≤ ceilN n B := by
  rw [ceilN, Nat.le_div_iff_mul_le hB]
  omega

lemma le_ceilN_mul {n B : ℕ} (hB : 1 ≤ B) : n ≤ ceilN n B * B := by
  have hd := Nat.div_add_mod (n + B - 1) B
  have hm : (n + B - 1) % B < B := Nat.mod_lt _ hB
  have e : ceilN n B * B = B * ((n + B - 1) / B) := by rw [ceilN]; ring
  omega

lemma mul_lt_of_lt_ceilN {n B j : ℕ} (hB : 1 ≤ B) (hj : j < ceilN n B) :
    j * B < n := by
  have h1 : (j + 1) * B ≤ ceilN n B * B := Nat.mul_le_mul_right _ hj
  have hd := Nat.div_add_mod (n + B - 1) B
  have hm : (n + B - 1) % B < B := Nat.mod_lt _ hB
  have e : ceilN n B * B = B * ((n + B - 1) / B) := by rw [ceilN]; ring
  have e2 : (j + 1) * B = j * B + B := by ring
  omega

lemma ceilN_ceilN_le {n B : ℕ} (hn : 1 ≤ n) (hB : 1 ≤ B) :
    ceilN n (ceilN n B) ≤ B := by
  have hbN : 1 ≤ ceilN n B := ceilN_pos hn hB
  have h1 : n ≤ ceilN n B * B := le_ceilN_mul hB
  have h2 : ceilN n (ceilN n B) < B + 1 := by
    rw [ceilN, Nat.div_lt_iff_lt_mul hbN]
    have e : (B + 1) * ceilN n B = ceilN n B * B + ceilN n B := by ring
    omega
  omega

lemma arangeL_length (n bN : ℕ) : (arangeL n bN).length = ceilN n bN := by
  simp [arangeL]

lemma arangeL_getD {n bN i : ℕ} (hi : i < ceilN n bN) :
    (arangeL n bN).getD i 0 = i * bN := by
  rw [arangeL]
  have hl : i < ((List.range (ceilN n bN)).map (· * bN)).length := by
    simpa using hi
  rw [List.getD_eq_getElem _ _ hl, List.getElem_map, List.getElem_range]

lemma blockIdx_length (n bN b : ℕ) :
    (blockIdx n bN b).length = min (b + bN) n - b := by
  simp [blockIdx]

lemma blocks_flatten_aux {n bN : ℕ} (t : ℕ) :
    ((List.range t).map (fun i => blockIdx n bN (i * bN))).flatten
      = List.range' 0 (min (t * bN) n) := by
  induction t with
  | zero => simp
  | succ t ih =>
    rw [List.range_succ, List.map_append, List.flatten_append, ih]
    simp only [List.map_cons, List.map_nil, List.flatten_cons, List.flatten_nil,
      List.append_nil, blockIdx]
    rcases le_or_lt n (t * bN) with h | h
    · have e1 : min (t * bN) n = n := by omega
      have e2 : min (t * bN + bN) n = n := by omega
      have e3 : min ((t + 1) * bN) n = n := by
        have e : (t + 1) * bN = t * bN + bN := by ring
        omega
      rw [e1, e2, e3]
      have e4 : n - t * bN = 0 := by omega
      simp [e4]
    · have e1 : min (t * bN) n = t * bN := by omega
      rw [e1]
      have happ := List.range'_append 0 (t * bN) (min (t * bN + bN) n - t * bN) 1
      have e2 : 0 + 1 * (t * bN) = t * bN := by ring
      rw [e2] at happ
      rw [happ]
      congr 1
      have e3 : (t + 1) * bN = t * bN + bN := by ring
      omega

lemma blocks_flatten {n bN : ℕ} (hcov : n ≤ ceilN n bN * bN) :
    ((arangeL n bN).map (blockIdx n bN)).flatten = List.range n := by
  have h := @blocks_flatten_aux n bN (ceilN n bN)
  have e : min (ceilN n bN * bN) n = n := by omega
  rw [e] at h
  rw [arangeL, List.map_map]
  have e2 : List.map (blockIdx n bN ∘ fun x => x * bN) (List.range (ceilN n bN))
      = List.map (fun i => blockIdx n bN (i * bN)) (List.range (ceilN n bN)) := rfl
  rw [e2, h, List.range_eq_range']

/-- C3, counterexample: with `n = 6` sites and requested batch count
`B = 4`, the scheduler produces `ceil(6/ceil(6/4)) = 3` blocks, not `B = 4`
blocks, even though `n ≥ B`: the claim "the number of blocks produced is
B, with fewer than B blocks only when n < B" fails at `n = 6, B = 4`. -/
theorem batch_count_counterexample :
    ¬ ((arangeL 6 (ceilN 6 4)).length = 4 ∨ 6 < 4) := by decide

/-- C3, amended: for `n ≥ 1` sites and batch count `B ≥ 1`, with
`bN = ⌈n/B⌉`, the scheduler produces `⌈n/bN⌉ ≤ B` contiguous blocks
(`⌈n/bN⌉` can be less than `B` even when `n ≥ B`); block `i` starts at
`i*bN`; the blocks concatenate, in order, to exactly the site range
`[0, n)`; every block except the last has size `bN` and the last is
nonempty of size at most `bN`; when `B ≥ n` the block size degrades to
`1`, giving `n` one-site blocks; and when the thread count is at least
`m ≥ 1`, the chunk size degrades to `1`, the scheduler produces `threads`
chunk starts without failing, and chunk `i` covers one individual if
`i < m` and zero individuals otherwise. -/
theorem batch_scheduler_blocks (n B m threads : ℕ) (hn : 1 ≤ n)
    (hB : 1 ≤ B) :
    (arangeL n (ceilN n B)).length = ceilN n (ceilN n B) ∧
    (arangeL n (ceilN n B)).length ≤ B ∧
    (∀ i < (arangeL n (ceilN n B)).length,
      (arangeL n (ceilN n B)).getD i 0 = i * ceilN n B) ∧
    ((arangeL n (ceilN n B)).map (blockIdx n (ceilN n B))).flatten
      = List.range n ∧
    (∀ i, i + 1 < (arangeL n (ceilN n B)).length →
      (blockIdx n (ceilN n B) (i * ceilN n B)).length = ceilN n B) ∧
    (0 < (blockIdx n (ceilN n B)
        (((arangeL n (ceilN n B)).length - 1) * ceilN n B)).length ∧
      (blockIdx n (ceilN n B)
        (((arangeL n (ceilN n B)).length - 1) * ceilN n B)).length
        ≤ ceilN n B) ∧
    (n ≤ B → ceilN n B = 1 ∧ (arangeL n (ceilN n B)).length = n) ∧
    (1 ≤ m → m ≤ threads →
      ceilN m threads = 1 ∧
      (chunkStarts threads (ceilN m threads)).length = threads ∧
      ∀ i < threads,
        min (i * ceilN m threads + ceilN m threads) m - i * ceilN m threads
          = if i < m then 1 else 0) := by
  have hbN : 1 ≤ ceilN n B := ceilN_pos hn hB
  have hlen : (arangeL n (ceilN n B)).length = ceilN n (ceilN n B) :=
    arangeL_length n (ceilN n B)
  refine ⟨hlen, ?_, ?_, ?_, ?_, ?_, ?_, ?_⟩
  · rw [hlen]
    exact ceilN_ceilN_le hn hB
  · intro i hi
    rw [hlen] at hi
    exact arangeL_getD hi
  · exact blocks_flatten (le_ceilN_mul hbN)
  · intro i hi
    rw [hlen] at hi
    have h1 : (i + 1) * ceilN n B < n := mul_lt_of_lt_ceilN hbN hi
    have e : (i + 1) * ceilN n B = i * ceilN n B + ceilN n B := by ring
    rw [blockIdx_length]
    omega
  · rw [hlen]
    have hc : 1 ≤ ceilN n (ceilN n B) := ceilN_pos hn hbN
    have h1 : (ceilN n (ceilN n B) - 1) * ceilN n B < n :=
      mul_lt_of_lt_ceilN hbN (by omega)
    rw [blockIdx_length]
    constructor <;> omega
  · intro hnB
    have h1 : ceilN n B = 1 := by
      have h2 : ceilN n B < 2 := by
        rw [ceilN, Nat.div_lt_iff_lt_mul hB]
        omega
      omega
    refine ⟨h1, ?_⟩
    rw [hlen, h1]
    simp [ceilN]
  · intro hm hmt
    have ht : 1 ≤ threads := le_trans hm hmt
    have h1 : ceilN m threads = 1 := by
      have h2 : ceilN m threads < 2 := by
        rw [ceilN, Nat.div_lt_iff_lt_mul ht]
        omega
      have h3 : 1 ≤ ceilN m threads := ceilN_pos hm ht
      omega
    refine ⟨h1, by simp [chunkStarts], ?_⟩
    intro i hi
    rw [h1]
    rcases lt_or_le i m with h | h
    · simp only [if_pos h]
      omega
    · simp only [if_neg (not_lt.mpr h)]
      omega

/-- C3, witness: the amended scheduler theorem applied at `n = 6`,
`B = 4`, `m = 1`, `threads = 2`. -/
theorem batch_scheduler_blocks_witness :
    (arangeL 6 (ceilN 6 4)).length ≤ 4 ∧
    ((arangeL 6 (ceilN 6 4)).map (blockIdx 6 (ceilN 6 4))).flatten
      = List.range 6 := by
  have h := batch_scheduler_blocks 6 4 1 2 (by norm_num) (by norm_num)
  exact ⟨h.2.1, h.2.2.2.1⟩

/-! ## The acceleration inner loop: step budget and early stopping -/

lemma accelAux_zero {σ : Type} (step : σ → σ) (norm : σ → σ → ℚ) (d0 : ℚ)
    (x : σ) : accelAux step norm d0 0 x = (x, []) := rfl

lemma accelAux_succ {σ : Type} (step : σ → σ) (norm : σ → σ → ℚ) (d0 : ℚ)
    (fuel : ℕ) (x : σ) :
    accelAux step norm d0 (fuel + 1) x =
      if norm (step x) x ≤ (1 / 10) * d0 then (step x, [norm (step x) x])
      else ((accelAux step norm d0 fuel (step x)).1,
        norm (step x) x :: (accelAux step norm d0 fuel (step x)).2) := rfl

lemma accelLoop_succ {σ : Type} (step : σ → σ) (norm : σ → σ → ℚ)
    (p : ℕ) (x : σ) :
    accelLoop step norm (p + 1) x =
      ((accelAux step norm (norm (step x) x) p (step x)).1,
        norm (step x) x :: (accelAux step norm (norm (step x) x) p
          (step x)).2) := rfl

lemma getD_cons_last {α : Type} {a : α} {l : List α} (d : α) (hne : l ≠ []) :
    (a :: l).getD ((a :: l).length - 1) d = l.getD (l.length - 1) d := by
  have hpos : 0 < l.length := List.length_pos.mpr hne
  have e : (a :: l).length - 1 = (l.length - 1) + 1 := by
    simp only [List.length_cons]
    omega
  rw [e, List.getD_cons_succ]

lemma accelAux_spec {σ : Type} (step : σ → σ) (norm : σ → σ → ℚ) (d0 : ℚ)
    (fuel : ℕ) : ∀ x : σ,
      (accelAux step norm d0 fuel x).2.length ≤ fuel ∧
      (∀ j, j + 1 < (accelAux step norm d0 fuel x).2.length →
        (1 / 10) * d0 < (accelAux step norm d0 fuel x).2.getD j 0) ∧
      ((accelAux step norm d0 fuel x).2.length < fuel →
        (accelAux step norm d0 fuel x).2 ≠ [] ∧
        (accelAux step norm d0 fuel x).2.getD
          ((accelAux step norm d0 fuel x).2.length - 1) 0
          ≤ (1 / 10) * d0) := by
  induction fuel with
  | zero => intro x; simp [accelAux_zero]
  | succ fuel ih =>
    intro x
    rw [accelAux_succ]
    by_cases hle : norm (step x) x ≤ (1 / 10) * d0
    · rw [if_pos hle]
      refine ⟨by simp, by simp, fun _ => ⟨by simp, by simpa using hle⟩⟩
    · rw [if_neg hle]
      push_neg at hle
      obtain ⟨ih1, ih2, ih3⟩ := ih (step x)
      refine ⟨by simpa using ih1, ?_, ?_⟩
      · intro j hj
        match j with
        | 0 => simpa using hle
        | j + 1 =>
          simp only [List.length_cons, List.getD_cons_succ] at hj ⊢
          exact ih2 j (by omega)
      · intro hlen
        simp only [List.length_cons] at hlen
        obtain ⟨hne, hlast⟩ := ih3 (by omega)
        refine ⟨by simp, ?_⟩
        rw [getD_cons_last _ hne]
        exact hlast

lemma accelLoop_spec {σ : Type} (step : σ → σ) (norm : σ → σ → ℚ)
    (p : ℕ) (x : σ) :
    (accelLoop step norm p x).2.length ≤ p ∧
    (∀ j, 1 ≤ j → j + 1 < (accelLoop step norm p x).2.length →
      (1 / 10) * (accelLoop step norm p x).2.getD 0 0
        < (accelLoop step norm p x).2.getD j 0) ∧
    ((accelLoop step norm p x).2.length < p →
      (accelLoop step norm p x).2 ≠ [] ∧
      (accelLoop step norm p x).2.getD
        ((accelLoop step norm p x).2.length - 1) 0
        ≤ (1 / 10) * (accelLoop step norm p x).2.getD 0 0) := by
  match p with
  | 0 => simp [accelLoop]
  | p + 1 =>
    rw [accelLoop_succ]
    obtain ⟨ih1, ih2, ih3⟩ :=
      accelAux_spec step norm (norm (step x) x) p (step x)
    refine ⟨by simpa using ih1, ?_, ?_⟩
    · intro j hj1 hj2
      match j with
      | j + 1 =>
        simp only [List.length_cons, List.getD_cons_succ,
          List.getD_cons_zero] at hj2 ⊢
        exact ih2 j (by omega)
    · intro hlen
      simp only [List.length_cons] at hlen
      obtain ⟨hne, hlast⟩ := ih3 (by omega)
      refine ⟨by simp, ?_⟩
      simp only [List.getD_cons_zero]
      rw [getD_cons_last _ hne]
      exact hlast

/-- C4: for every batch, the acceleration controller applies the F-update
kernel at most `pF m nb K = 2*(1 + (m*nb + m*K)/(nb*K + nb))` times and
the Q-update kernel at most `pQ m nb K = 2*(1 + (m*nb + nb*K)/(m*K + m))`
times (Python 2 integer division, `nb` the batch's column count), and for
either factor every inner step after which the loop continued had a
change norm strictly greater than 10% of the first inner step's change
norm — i.e. the loop stops early as soon as the change norm falls to
`≤ 0.1` times the first-step change.  Stated for every kernel `step` and
change-norm oracle `norm`, in particular the instances used by
`sweepBatch`. -/
theorem accel_budget_early_stop {σ : Type} (stepF stepQ : σ → σ)
    (normF normQ : σ → σ → ℚ) (m nb K : ℕ) (x y : σ) :
    (accelLoop stepF normF (pF m nb K) x).2.length ≤ pF m nb K ∧
    (accelLoop stepQ normQ (pQ m nb K) y).2.length ≤ pQ m nb K ∧
    (∀ j, 1 ≤ j → j + 1 < (accelLoop stepF normF (pF m nb K) x).2.length →
      (1 / 10) * (accelLoop stepF normF (pF m nb K) x).2.getD 0 0
        < (accelLoop stepF normF (pF m nb K) x).2.getD j 0) ∧
    (∀ j, 1 ≤ j → j + 1 < (accelLoop stepQ normQ (pQ m nb K) y).2.length →
      (1 / 10) * (accelLoop stepQ normQ (pQ m nb K) y).2.getD 0 0
        < (accelLoop stepQ normQ (pQ m nb K) y).2.getD j 0) :=
  ⟨(accelLoop_spec stepF normF (pF m nb K) x).1,
   (accelLoop_spec stepQ normQ (pQ m nb K) y).1,
   (accelLoop_spec stepF normF (pF m nb K) x).2.1,
   (accelLoop_spec stepQ normQ (pQ m nb K) y).2.1⟩

/-- C4, witness: with the constant change norm `1`, the loop runs to the
full budget `pF 1 1 1 = 4` (`1 > 0.1` at every step), and the theorem
yields `0.1 * 1 < 1` at inner step `1`. -/
theorem accel_budget_early_stop_witness :
    (accelLoop (fun x : ℚ => x) (fun _ _ => (1 : ℚ))
        (pF 1 1 1) 16).2.length ≤ pF 1 1 1 ∧
    (1 / 10) * (accelLoop (fun x : ℚ => x) (fun _ _ => (1 : ℚ))
        (pF 1 1 1) 16).2.getD 0 0
      < (accelLoop (fun x : ℚ => x) (fun _ _ => (1 : ℚ))
        (pF 1 1 1) 16).2.getD 1 0 := by
  have h := accel_budget_early_stop (fun x : ℚ => x) (fun x : ℚ => x)
    (fun _ _ => (1 : ℚ)) (fun _ _ => (1 : ℚ)) 1 1 1 16 16
  refine ⟨h.1, h.2.2.1 1 (by norm_num) ?_⟩
  have e : pF 1 1 1 = 4 := by norm_num [pF]
  rw [e]
  norm_num [accelLoop_succ, accelAux_succ, accelAux_zero]

/-! ## Clamp bounds of the update kernels and the renormalization -/

lemma eps_pos : (0 : ℚ) < eps := by norm_num [eps]

lemma eps_le_one_sub : eps ≤ 1 - eps := by norm_num [eps]

lemma updateF_mem (F A FB : Mat) (s k : ℕ) :
    eps ≤ updateF F A FB s k ∧ updateF F A FB s k ≤ 1 - eps :=
  ⟨le_min (le_max_right _ _) eps_le_one_sub, min_le_right _ _⟩

lemma updateQ_mem (Q A QB : Mat) (alpha : ℚ) (i k : ℕ) :
    eps ≤ updateQ Q A QB alpha i k ∧ updateQ Q A QB alpha i k ≤ 1 - eps :=
  ⟨le_min (le_max_right _ _) eps_le_one_sub, min_le_right _ _⟩

lemma normalizeRows_sum_one {K : ℕ} {Q : Mat} {i : ℕ}
    (hS : ∑ j ∈ Finset.range K, Q i j ≠ 0) :
    ∑ k ∈ Finset.range K, normalizeRows K Q i k = 1 := by
  simp only [normalizeRows]
  rw [← Finset.sum_div, div_self hS]

/-- The Q-update step of the acceleration loop (kernel plus row
renormalization) always produces rows summing to `1`, for `K ≥ 1`. -/
lemma updateQ_renorm_rows_one {K : ℕ} (hK : 1 ≤ K) (Q A QB : Mat)
    (alpha : ℚ) (i : ℕ) :
    ∑ k ∈ Finset.range K, normalizeRows K (updateQ Q A QB alpha) i k = 1 := by
  refine normalizeRows_sum_one (ne_of_gt ?_)
  refine Finset.sum_pos (fun k _ => ?_) ⟨0, Finset.mem_range.mpr (by omega)⟩
  exact lt_of_lt_of_le eps_pos (updateQ_mem Q A QB alpha i k).1

/-- C2, counterexample: the claim includes the row renormalization the
orchestrator applies to `Q` after each `updateQ` call; but renormalizing
the (clamped, in-range) row `(1e-4, 1-1e-4, 1-1e-4)` produced by
`updateQ` with `A = QB = 1`, `alpha = 0` on a `K = 3` fit drops its first
entry to `1/19999 < 1e-4`, outside `[1e-4, 1-1e-4]`. -/
theorem renorm_below_eps :
    ¬ (eps ≤ normalizeRows 3
        (updateQ (fun _ k => if k = 0 then eps else 1 - eps)
          (fun _ _ => 1) (fun _ _ => 1) 0) 0 0) := by
  norm_num [normalizeRows, updateQ, eps, Finset.sum_range_succ, min_def,
    max_def]

/-- C2, amended: after every `updateF` kernel call and every `updateQ`
kernel call every entry of the written factor lies in `[1e-4, 1-1e-4]`
(the clamp guarantees this for arbitrary inputs); the row renormalization
applied to `Q` after each Q-update preserves the upper bound `1-1e-4`
(for `K ≥ 2`), keeps every entry strictly positive and makes each row sum
to `1`, but can push entries below `1e-4` (when `K ≥ 3`). -/
theorem update_clamp_bounds :
    (∀ F A FB : Mat, ∀ s k,
      eps ≤ updateF F A FB s k ∧ updateF F A FB s k ≤ 1 - eps) ∧
    (∀ Q A QB : Mat, ∀ alpha : ℚ, ∀ i k,
      eps ≤ updateQ Q A QB alpha i k ∧ updateQ Q A QB alpha i k ≤ 1 - eps) ∧
    (∀ K : ℕ, ∀ Q : Mat, ∀ i, 2 ≤ K →
      (∀ k < K, eps ≤ Q i k ∧ Q i k ≤ 1 - eps) →
      (∑ k ∈ Finset.range K, normalizeRows K Q i k = 1) ∧
      ∀ k < K, 0 < normalizeRows K Q i k ∧
        normalizeRows K Q i k ≤ 1 - eps) := by
  refine ⟨updateF_mem, updateQ_mem, ?_⟩
  · intro K Q i hK2 hQ
    have hKpos : 0 < K := by omega
    have hpos : ∀ k ∈ Finset.range K, 0 < Q i k := fun k hk =>
      lt_of_lt_of_le eps_pos (hQ k (Finset.mem_range.mp hk)).1
    have hSpos : 0 < ∑ j ∈ Finset.range K, Q i j :=
      Finset.sum_pos hpos ⟨0, Finset.mem_range.mpr hKpos⟩
    refine ⟨?_, ?_⟩
    · simp only [normalizeRows]
      rw [← Finset.sum_div, div_self (ne_of_gt hSpos)]
    · intro k hk
      have hQk := hQ k hk
      refine ⟨?_, ?_⟩
      · exact div_pos (lt_of_lt_of_le eps_pos hQk.1) hSpos
      · simp only [normalizeRows]
        rw [div_le_iff₀ hSpos]
        have hne : ((Finset.range K).erase k).Nonempty := by
          rw [← Finset.card_pos,
            Finset.card_erase_of_mem (Finset.mem_range.mpr hk),
            Finset.card_range]
          omega
        obtain ⟨j0, hj0⟩ := hne
        have h1 : eps ≤ Q i j0 :=
          (hQ j0 (Finset.mem_range.mp (Finset.mem_of_mem_erase hj0))).1
        have h2 : Q i j0 ≤ ∑ j ∈ (Finset.range K).erase k, Q i j :=
          Finset.single_le_sum
            (fun j hj => le_of_lt (hpos j (Finset.mem_of_mem_erase hj))) hj0
        have h3 : Q i k + ∑ j ∈ (Finset.range K).erase k, Q i j
            = ∑ j ∈ Finset.range K, Q i j :=
          Finset.add_sum_erase _ _ (Finset.mem_range.mpr hk)
        have hS_ge : Q i k + eps ≤ ∑ j ∈ Finset.range K, Q i j := by
          linarith
        have hepsnn : (0 : ℚ) ≤ eps := le_of_lt eps_pos
        have h4 : (0 : ℚ) ≤ 1 - eps := by norm_num [eps]
        nlinarith [mul_nonneg hepsnn
            (by linarith [hQk.2] : (0 : ℚ) ≤ 1 - eps - Q i k),
          mul_nonneg h4
            (by linarith :
              (0 : ℚ) ≤ (∑ j ∈ Finset.range K, Q i j) - Q i k - eps)]

/-- C2, witness: the amended theorem applied to the uniform row
`Q = 1/2` with `K = 2`: the normalized row sums to `1` and stays within
the bounds. -/
theorem update_clamp_bounds_witness :
    (∑ k ∈ Finset.range 2,
      normalizeRows 2 (fun _ _ => (1 / 2 : ℚ)) 0 k) = 1 ∧
    0 < normalizeRows 2 (fun _ _ => (1 / 2 : ℚ)) 0 0 ∧
    eps ≤ updateF (fun _ _ => 0) (fun _ _ => 0) (fun _ _ => 0) 0 0 := by
  have h := update_clamp_bounds
  have h3 := h.2.2 2 (fun _ _ => (1 / 2 : ℚ)) 0 (by norm_num)
    (by intro k hk; norm_num [eps])
  exact ⟨h3.1, (h3.2 0 (by norm_num)).1,
    (h.1 (fun _ _ => 0) (fun _ _ => 0) (fun _ _ => 0) 0 0).1⟩

/-! ## The parallel log-likelihood reduction -/

lemma chunkStarts_succ (t cN : ℕ) :
    chunkStarts (t + 1) cN = chunkStarts t cN ++ [t * cN] := by
  simp [chunkStarts, List.range_succ]

lemma logLike_fold_val (flog : ℚ → ℚ) (likeM Pi : Mat) (m n cN : ℕ) :
    ∀ (t : ℕ) (ind : ℕ),
      ((chunkStarts t cN).foldl
        (fun L S => logLike_admixInner flog likeM Pi m n S cN L)
        (fun _ => 0)) ind
      = if ind < min (t * cN) m then
          ∑ s ∈ Finset.range n, flog (hwLike likeM Pi ind s)
        else 0 := by
  intro t
  induction t with
  | zero => intro ind; simp [chunkStarts]
  | succ t ih =>
    intro ind
    rw [chunkStarts_succ, List.foldl_append]
    simp only [List.foldl_cons, List.foldl_nil]
    rw [logLike_admixInner]
    have e : (t + 1) * cN = t * cN + cN := by ring
    rw [ih ind]
    split_ifs <;> first | (exfalso; omega) | ring

lemma logLike_admix_eq (flog : ℚ → ℚ) (likeM Pi : Mat) (m n threads : ℕ)
    (ht : 1 ≤ threads) :
    logLike_admix flog likeM Pi m n
      (chunkStarts threads (ceilN m threads)) (ceilN m threads)
      = ∑ ind ∈ Finset.range m, ∑ s ∈ Finset.range n,
          flog (hwLike likeM Pi ind s) := by
  rw [logLike_admix]
  refine Finset.sum_congr rfl fun ind hind => ?_
  rw [logLike_fold_val]
  have hm : ind < m := Finset.mem_range.mp hind
  have hcov : m ≤ threads * ceilN m threads := by
    have := @le_ceilN_mul m threads ht
    have e : ceilN m threads * threads = threads * ceilN m threads := by ring
    omega
  rw [if_pos (by omega)]

/-- C8: the log-likelihood returned by the objective evaluator equals the
sequential double sum, over every individual `i < m` and site `s < n`, of
`flog` of
`likeMatrix[3i,s]*(1-Pi[i,s])^2 + likeMatrix[3i+1,s]*2*Pi[i,s]*(1-Pi[i,s])
+ likeMatrix[3i+2,s]*Pi[i,s]^2` with `Pi = clip(Q*F^T)`: the
per-individual partial sums accumulated by the workers over the disjoint
chunks `[i*chunk_N, min((i+1)*chunk_N, m))` reduce to the same total. -/
theorem loglike_chunked_total (flog : ℚ → ℚ) (likeM Q F : Mat)
    (m n K threads : ℕ) (ht : 1 ≤ threads) :
    logLike_admix flog likeM
      (fun i j => min (max (matMulN K Q (transposeM F) i j) eps) (1 - eps))
      m n (chunkStarts threads (ceilN m threads)) (ceilN m threads)
      = ∑ ind ∈ Finset.range m, ∑ s ∈ Finset.range n,
          flog (hwLike likeM
            (fun i j =>
              min (max (matMulN K Q (transposeM F) i j) eps) (1 - eps))
            ind s) :=
  logLike_admix_eq flog likeM _ m n threads ht

/-- C8, witness: the chunked reduction theorem applied at
`m = n = K = threads = 1` with `flog = id` and constant matrices. -/
theorem loglike_chunked_total_witness :
    logLike_admix (fun q => q) (fun _ _ => 1)
      (fun i j => min (max (matMulN 1 (fun _ _ => (1 / 2 : ℚ))
        (transposeM (fun _ _ => (1 / 2 : ℚ))) i j) eps) (1 - eps))
      1 1 (chunkStarts 1 (ceilN 1 1)) (ceilN 1 1)
      = ∑ ind ∈ Finset.range 1, ∑ s ∈ Finset.range 1,
          (fun q => q) (hwLike (fun _ _ => 1)
            (fun i j => min (max (matMulN 1 (fun _ _ => (1 / 2 : ℚ))
              (transposeM (fun _ _ => (1 / 2 : ℚ))) i j) eps) (1 - eps))
            ind s) :=
  loglike_chunked_total (fun q => q) (fun _ _ => 1) (fun _ _ => (1 / 2 : ℚ))
    (fun _ _ => (1 / 2 : ℚ)) 1 1 1 1 (by norm_num)

/-! ## The column un-permutation at finalization -/

lemma argsortL_perm (v : ℕ → ℕ) (n : ℕ) :
    (argsortL v n).Perm (List.range n) :=
  List.perm_insertionSort _ _

lemma argsortL_length (v : ℕ → ℕ) (n : ℕ) : (argsortL v n).length = n :=
  (argsortL_perm v n).length_eq.trans (List.length_range n)

lemma argsortL_map_eq_range {v : ℕ → ℕ} {n : ℕ}
    (hperm : ((List.range n).map v).Perm (List.range n)) :
    (argsortL v n).map v = List.range n := by
  haveI : IsTotal ℕ (fun i j => v i ≤ v j) := ⟨fun a b => le_total (v a) (v b)⟩
  haveI : IsTrans ℕ (fun i j => v i ≤ v j) :=
    ⟨fun a b c hab hbc => le_trans hab hbc⟩
  have hsorted : List.Sorted (fun i j => v i ≤ v j) (argsortL v n) :=
    List.sorted_insertionSort _ _
  have hmapsorted : List.Sorted (· ≤ ·) ((argsortL v n).map v) := by
    rw [List.Sorted, List.pairwise_map]
    exact hsorted
  have hmapperm : ((argsortL v n).map v).Perm (List.range n) :=
    ((argsortL_perm v n).map v).trans hperm
  exact List.eq_of_perm_of_sorted hmapperm hmapsorted (List.sorted_le_range n)

/-- For a `v` that permutes `[0, n)`, entry `j` of `np.argsort(v)` is the
index that `v` sends to `j`. -/
lemma argsortIdx_inverse {v : ℕ → ℕ} {n : ℕ}
    (hperm : ((List.range n).map v).Perm (List.range n)) :
    ∀ j < n, v (argsortIdx v n j) = j := by
  intro j hj
  have hlen : j < (argsortL v n).length := by rwa [argsortL_length]
  have hlen2 : j < ((argsortL v n).map v).length := by simpa using hlen
  rw [argsortIdx, List.getD_eq_getElem _ _ hlen]
  have h1 : ((argsortL v n).map v).getD j 0 = v ((argsortL v n).getD j 0) := by
    rw [List.getD_eq_getElem _ _ hlen, List.getD_eq_getElem _ _ hlen2,
      List.getElem_map]
  have h2 : ((argsortL v n).map v).getD j 0 = j := by
    rw [argsortL_map_eq_range hperm]
    have hlen3 : j < (List.range n).length := by simpa using hj
    rw [List.getD_eq_getElem _ _ hlen3, List.getElem_range]
  rw [← List.getD_eq_getElem _ _ hlen, ← h1, h2]

/-- Members of `np.argsort(v)` are below `n`. -/
lemma argsortIdx_lt {v : ℕ → ℕ} {n : ℕ} :
    ∀ j < n, argsortIdx v n j < n := by
  intro j hj
  have hlen : j < (argsortL v n).length := by rwa [argsortL_length]
  rw [argsortIdx, List.getD_eq_getElem _ _ hlen]
  have hmem : (argsortL v n).get ⟨j, hlen⟩ ∈ argsortL v n :=
    List.get_mem _ j hlen
  have hmem2 := (argsortL_perm v n).mem_iff.mp hmem
  simpa [List.mem_range] using hmem2

/-- The argsort of a permutation is its two-sided inverse on `[0, n)`. -/
lemma argsortIdx_inverse_right {v : ℕ → ℕ} {n : ℕ}
    (hperm : ((List.range n).map v).Perm (List.range n)) :
    ∀ j < n, argsortIdx v n (v j) = j := by
  intro j hj
  have hvj : v j < n := by
    have hmem : v j ∈ (List.range n).map v :=
      List.mem_map.mpr ⟨j, List.mem_range.mpr hj, rfl⟩
    have := hperm.mem_iff.mp hmem
    simpa [List.mem_range] using this
  have hq : argsortIdx v n (v j) < n := argsortIdx_lt (v j) hvj
  have hvq : v (argsortIdx v n (v j)) = v j := argsortIdx_inverse hperm _ hvj
  -- v is injective on [0, n) since (range n).map v has no duplicates
  have hnodup : ((List.range n).map v).Nodup :=
    (List.Perm.nodup_iff hperm).mpr (List.nodup_range n)
  have hinj := List.inj_on_of_nodup_map hnodup
  exact hinj (List.mem_range.mpr hq) (List.mem_range.mpr hj) hvq

/-- C6: the column un-permutation applied at finalization is the true
inverse of the initial shuffle: for every input `X` and every draw of
`shuffleX` (any `shuffle` permuting `[0, n)`), the internally held `X`
after finalization equals the original `X` on every site column `j < n`,
and `shuffleX ∘ argsort(shuffleX) = id = argsort(shuffleX) ∘ shuffleX`
on `[0, n)`, so the site order of the returned `F` (row `j` is fit row
`argsort(shuffleX)[j]`, which the shuffle sent to original site `j`) and
of `X` equals the original input site order. -/
theorem unshuffle_inverse (m n K : ℕ) (X likeM : Mat) (alpha : ℚ)
    (iter : ℕ) (tole : ℚ) (shuffle : ℕ → ℕ) (Q0 : Mat) (batch threads : ℕ)
    (frob rmse : Mat → Mat → ℕ → ℕ → ℚ) (flog : ℚ → ℚ)
    (hperm : ((List.range n).map shuffle).Perm (List.range n)) :
    (∀ i, ∀ j < n,
      (admixNMF m n K X likeM alpha iter tole shuffle Q0 batch threads
        frob rmse flog).Xfin i j = X i j) ∧
    (∀ j < n, shuffle (argsortIdx shuffle n j) = j) ∧
    (∀ j < n, argsortIdx shuffle n (shuffle j) = j) := by
  refine ⟨?_, argsortIdx_inverse hperm, argsortIdx_inverse_right hperm⟩
  intro i j hj
  have e : (admixNMF m n K X likeM alpha iter tole shuffle Q0 batch threads
      frob rmse flog).Xfin i j = X i (shuffle (argsortIdx shuffle n j)) := rfl
  rw [e, argsortIdx_inverse hperm j hj]

/-- C6, witness: with `n = 2` and the transposition shuffle, finalization
restores the original column contents at `(0, 1)`. -/
theorem unshuffle_inverse_witness :
    (admixNMF 1 2 1 (fun _ j => (j : ℚ)) (fun _ _ => 1) 0 1 (1 / 20000)
      (fun j => if j = 0 then 1 else if j = 1 then 0 else j)
      (fun _ _ => 1) 1 1 (fun _ _ _ _ => 0) (fun _ _ _ _ => 0)
      (fun q => q)).Xfin 0 1 = ((1 : ℕ) : ℚ) := by
  have h := unshuffle_inverse 1 2 1 (fun _ j => (j : ℚ)) (fun _ _ => 1) 0 1
    (1 / 20000) (fun j => if j = 0 then 1 else if j = 1 then 0 else j)
    (fun _ _ => 1) 1 1 (fun _ _ _ _ => 0) (fun _ _ _ _ => 0) (fun q => q)
    (by decide)
  exact h.1 0 1 (by norm_num)

/-! ## Outer-loop termination -/

lemma outerLoop_zero (sweep : Mat × Mat → Mat × Mat)
    (rmse : Mat → Mat → ℕ → ℕ → ℚ) (m K : ℕ) (tole : ℚ) (prevQ : Mat)
    (QF : Mat × Mat) :
    outerLoop sweep rmse m K tole 0 prevQ QF = (QF, []) := rfl

lemma outerLoop_succ (sweep : Mat × Mat → Mat × Mat)
    (rmse : Mat → Mat → ℕ → ℕ → ℚ) (m K : ℕ) (tole : ℚ) (fuel : ℕ)
    (prevQ : Mat) (QF : Mat × Mat) :
    outerLoop sweep rmse m K tole (fuel + 1) prevQ QF =
      if rmse (sweep QF).1 prevQ m K < tole then
        (sweep QF, [(rmse (sweep QF).1 prevQ m K, (sweep QF).1)])
      else
        ((outerLoop sweep rmse m K tole fuel (sweep QF).1 (sweep QF)).1,
          (rmse (sweep QF).1 prevQ m K, (sweep QF).1) ::
            (outerLoop sweep rmse m K tole fuel (sweep QF).1
              (sweep QF)).2) := rfl

/-- Default element for reading the convergence trace. -/
def dtr : ℚ × Mat := (0, fun _ _ => 0)

lemma outerLoop_spec (sweep : Mat × Mat → Mat × Mat)
    (rmse : Mat → Mat → ℕ → ℕ → ℚ) (m K : ℕ) (tole : ℚ) (fuel : ℕ) :
    ∀ (prevQ : Mat) (QF : Mat × Mat),
      (outerLoop sweep rmse m K tole fuel prevQ QF).2.length ≤ fuel ∧
      (∀ j, j + 1 < (outerLoop sweep rmse m K tole fuel prevQ QF).2.length →
        tole ≤ ((outerLoop sweep rmse m K tole fuel prevQ QF).2.getD
          j dtr).1) ∧
      ((outerLoop sweep rmse m K tole fuel prevQ QF).2.length < fuel →
        (outerLoop sweep rmse m K tole fuel prevQ QF).2 ≠ [] ∧
        ((outerLoop sweep rmse m K tole fuel prevQ QF).2.getD
          ((outerLoop sweep rmse m K tole fuel prevQ QF).2.length - 1)
            dtr).1 < tole) ∧
      (1 ≤ fuel →
        ((outerLoop sweep rmse m K tole fuel prevQ QF).2.getD 0 dtr).1
          < tole →
        (outerLoop sweep rmse m K tole fuel prevQ QF).2.length = 1) := by
  induction fuel with
  | zero => intro prevQ QF; simp [outerLoop_zero]
  | succ fuel ih =>
    intro prevQ QF
    rw [outerLoop_succ]
    by_cases hconv : rmse (sweep QF).1 prevQ m K < tole
    · rw [if_pos hconv]
      exact ⟨by simp, by simp, fun _ => ⟨by simp, by simpa using hconv⟩,
        fun _ _ => by simp⟩
    · rw [if_neg hconv]
      obtain ⟨ih1, ih2, ih3, _⟩ := ih (sweep QF).1 (sweep QF)
      refine ⟨by simpa using ih1, ?_, ?_, ?_⟩
      · intro j hj
        match j with
        | 0 => simpa using not_lt.mp hconv
        | j + 1 =>
          simp only [List.length_cons, List.getD_cons_succ] at hj ⊢
          exact ih2 j (by omega)
      · intro hlen
        simp only [List.length_cons] at hlen
        obtain ⟨hne, hlast⟩ := ih3 (by omega)
        refine ⟨by simp, ?_⟩
        rw [getD_cons_last _ hne]
        exact hlast
      · intro _ hfirst
        simp only [List.getD_cons_zero] at hfirst
        exact absurd hfirst hconv

/-- C5: the outer loop of `admixNMF` performs at most `iter` iterations;
every iteration after which it continued had `Q`-RMSD at least `tole`; if
it stopped before exhausting `iter`, the last measured RMSD was below
`tole`; and whenever `tole` is greater than the RMSD measured after the
first outer iteration, exactly one outer iteration is performed.  Stated
for every input and every instantiation of the external helpers. -/
theorem outer_loop_termination (m n K : ℕ) (X likeM : Mat) (alpha : ℚ)
    (iter : ℕ) (tole : ℚ) (shuffle : ℕ → ℕ) (Q0 : Mat) (batch threads : ℕ)
    (frob rmse : Mat → Mat → ℕ → ℕ → ℚ) (flog : ℚ → ℚ) :
    (admixNMF m n K X likeM alpha iter tole shuffle Q0 batch threads
      frob rmse flog).trace.length ≤ iter ∧
    (∀ j, j + 1 < (admixNMF m n K X likeM alpha iter tole shuffle Q0 batch
        threads frob rmse flog).trace.length →
      tole ≤ ((admixNMF m n K X likeM alpha iter tole shuffle Q0 batch
        threads frob rmse flog).trace.getD j dtr).1) ∧
    ((admixNMF m n K X likeM alpha iter tole shuffle Q0 batch threads
        frob rmse flog).trace.length < iter →
      (admixNMF m n K X likeM alpha iter tole shuffle Q0 batch threads
        frob rmse flog).trace ≠ [] ∧
      ((admixNMF m n K X likeM alpha iter tole shuffle Q0 batch threads
        frob rmse flog).trace.getD
          ((admixNMF m n K X likeM alpha iter tole shuffle Q0 batch threads
            frob rmse flog).trace.length - 1) dtr).1 < tole) ∧
    (1 ≤ iter →
      ((admixNMF m n K X likeM alpha iter tole shuffle Q0 batch threads
        frob rmse flog).trace.getD 0 dtr).1 < tole →
      (admixNMF m n K X likeM alpha iter tole shuffle Q0 batch threads
        frob rmse flog).trace.length = 1) := by
  have e : (admixNMF m n K X likeM alpha iter tole shuffle Q0 batch threads
      frob rmse flog).trace
    = (outerLoop (sweepAll m n K alpha frob (fun i j => X i (shuffle j))
        (ceilN n batch)) rmse m K tole iter (normalizeRows K Q0)
        (normalizeRows K Q0,
          initF m K (normalizeRows K Q0) (fun i j => X i (shuffle j)))).2 :=
    rfl
  rw [e]
  exact outerLoop_spec _ rmse m K tole iter _ _

/-- C5, witness: with the constant-zero `rmse2d_float32` oracle and
`tole = 5e-5 > 0`, the fit at a concrete input stops after exactly one
outer iteration. -/
theorem outer_loop_termination_witness :
    (admixNMF 1 1 1 (fun _ _ => (1 / 2 : ℚ)) (fun _ _ => 1) 0 1 (1 / 20000)
      (fun j => j) (fun _ _ => 1) 1 1 (fun _ _ _ _ => 0) (fun _ _ _ _ => 0)
      (fun q => q)).trace.length = 1 := by
  have h := outer_loop_termination 1 1 1 (fun _ _ => (1 / 2 : ℚ))
    (fun _ _ => 1) 0 1 (1 / 20000) (fun j => j) (fun _ _ => 1) 1 1
    (fun _ _ _ _ => 0) (fun _ _ _ _ => 0) (fun q => q)
  refine h.2.2.2 (by norm_num) ?_
  norm_num [admixNMF, outerLoop_succ, dtr]

/-! ## Row-stochasticity of Q through the fit -/

lemma accelAux_pres {σ : Type} (P : σ → Prop) (step : σ → σ)
    (norm : σ → σ → ℚ) (d0 : ℚ) (hstep : ∀ x, P (step x)) :
    ∀ (fuel : ℕ) (x : σ), P x → P (accelAux step norm d0 fuel x).1 := by
  intro fuel
  induction fuel with
  | zero => intro x hx; simpa [accelAux_zero] using hx
  | succ fuel ih =>
    intro x hx
    rw [accelAux_succ]
    by_cases hle : norm (step x) x ≤ (1 / 10) * d0
    · rw [if_pos hle]
      exact hstep x
    · rw [if_neg hle]
      exact ih (step x) (hstep x)

lemma accelLoop_out {σ : Type} (P : σ → Prop) (step : σ → σ)
    (norm : σ → σ → ℚ) (hstep : ∀ x, P (step x)) (p : ℕ) (x : σ)
    (hp : 1 ≤ p) : P (accelLoop step norm p x).1 := by
  match p, hp with
  | p + 1, _ =>
    rw [accelLoop_succ]
    exact accelAux_pres P step norm _ hstep p (step x) (hstep x)

/-- Any property established by the renormalized Q-update step
unconditionally holds of the `Q` produced by `sweepBatch` (the Q-loop
budget `pQ ≥ 2` guarantees at least one step). -/
lemma sweepBatch_fst_prop (m n K : ℕ) (alpha : ℚ)
    (frob : Mat → Mat → ℕ → ℕ → ℚ) (X : Mat) (bN b : ℕ) (QF : Mat × Mat)
    (P : Mat → Prop)
    (h : ∀ A2 B2 Qc : Mat, P (normalizeRows K (updateQ Qc A2 B2 alpha))) :
    P (sweepBatch m n K alpha frob X bN b QF).1 := by
  have hpQ : 1 ≤ pQ m (min (b + bN) n - b) K := by
    unfold pQ
    generalize (m * (min (b + bN) n - b) + (min (b + bN) n - b) * K)
      / (m * K + m) = q
    omega
  simp only [sweepBatch]
  exact accelLoop_out P _ _ (fun x => h _ _ x) _ _ hpQ

lemma foldl_pres {σ β : Type} (P : σ → Prop) (f : σ → β → σ)
    (hf : ∀ s b, P s → P (f s b)) :
    ∀ (l : List β) (s : σ), P s → P (l.foldl f s) := by
  intro l
  induction l with
  | nil => intro s hs; exact hs
  | cons b l ih => intro s hs; exact ih (f s b) (hf s b hs)

lemma outerLoop_pres (P : Mat → Prop) (sweep : Mat × Mat → Mat × Mat)
    (rmse : Mat → Mat → ℕ → ℕ → ℚ) (m K : ℕ) (tole : ℚ)
    (hsweep : ∀ QF, P QF.1 → P (sweep QF).1) :
    ∀ (fuel : ℕ) (prevQ : Mat) (QF : Mat × Mat), P QF.1 →
      P (outerLoop sweep rmse m K tole fuel prevQ QF).1.1 ∧
      ∀ dq ∈ (outerLoop sweep rmse m K tole fuel prevQ QF).2, P dq.2 := by
  intro fuel
  induction fuel with
  | zero => intro prevQ QF hQF; exact ⟨hQF, by simp [outerLoop_zero]⟩
  | succ fuel ih =>
    intro prevQ QF hQF
    rw [outerLoop_succ]
    have hQF' : P (sweep QF).1 := hsweep QF hQF
    by_cases hconv : rmse (sweep QF).1 prevQ m K < tole
    · rw [if_pos hconv]
      refine ⟨hQF', ?_⟩
      intro dq hdq
      simp only [List.mem_singleton] at hdq
      rw [hdq]
      exact hQF'
    · rw [if_neg hconv]
      obtain ⟨ih1, ih2⟩ := ih (sweep QF).1 (sweep QF) hQF'
      refine ⟨ih1, ?_⟩
      intro dq hdq
      simp only [List.mem_cons] at hdq
      rcases hdq with h | h
      · rw [h]; exact hQF'
      · exact ih2 dq h

/-- C7: every row `i < m` of the proportion matrix `Q` sums to exactly `1`
whenever the convergence monitor inspects `Q` and when `Q` is returned:
the rows are normalized at initialization (provided the random draw gave
the row a nonzero sum) and re-normalized immediately after every Q-update
kernel call.  Exact rational arithmetic; `K ≥ 1`. -/
theorem q_rows_sum_one (m n K : ℕ) (X likeM : Mat) (alpha : ℚ)
    (iter : ℕ) (tole : ℚ) (shuffle : ℕ → ℕ) (Q0 : Mat) (batch threads : ℕ)
    (frob rmse : Mat → Mat → ℕ → ℕ → ℚ) (flog : ℚ → ℚ) (hK : 1 ≤ K)
    (hQ0 : ∀ i < m, ∑ k ∈ Finset.range K, Q0 i k ≠ 0) :
    (∀ i < m, ∑ k ∈ Finset.range K,
      (admixNMF m n K X likeM alpha iter tole shuffle Q0 batch threads
        frob rmse flog).Q i k = 1) ∧
    (∀ dq ∈ (admixNMF m n K X likeM alpha iter tole shuffle Q0 batch
        threads frob rmse flog).trace,
      ∀ i < m, ∑ k ∈ Finset.range K, dq.2 i k = 1) := by
  have hsweep : ∀ QF : Mat × Mat,
      (∀ i < m, ∑ k ∈ Finset.range K, QF.1 i k = 1) →
      ∀ i < m, ∑ k ∈ Finset.range K,
        (sweepAll m n K alpha frob (fun i j => X i (shuffle j))
          (ceilN n batch) QF).1 i k = 1 := by
    intro QF hQF
    refine foldl_pres (fun QF => ∀ i < m, ∑ k ∈ Finset.range K, QF.1 i k = 1)
      _ ?_ _ QF hQF
    intro s b _
    refine sweepBatch_fst_prop m n K alpha frob _ (ceilN n batch) b s
      (fun Q => ∀ i < m, ∑ k ∈ Finset.range K, Q i k = 1) ?_
    intro A2 B2 Qc i _
    exact updateQ_renorm_rows_one hK Qc A2 B2 alpha i
  have hinit : ∀ i < m,
      ∑ k ∈ Finset.range K, normalizeRows K Q0 i k = 1 := by
    intro i hi
    exact normalizeRows_sum_one (hQ0 i hi)
  have h := outerLoop_pres
    (fun Q => ∀ i < m, ∑ k ∈ Finset.range K, Q i k = 1)
    (sweepAll m n K alpha frob (fun i j => X i (shuffle j)) (ceilN n batch))
    rmse m K tole (fun QF hQF => hsweep QF hQF) iter (normalizeRows K Q0)
    (normalizeRows K Q0,
      initF m K (normalizeRows K Q0) (fun i j => X i (shuffle j)))
    hinit
  exact ⟨h.1, fun dq hdq => h.2 dq hdq⟩

/-- C7, witness: at a concrete one-individual, one-component input with
unit random draw, the returned `Q`'s row sums to `1`. -/
theorem q_rows_sum_one_witness :
    ∑ k ∈ Finset.range 1,
      (admixNMF 1 1 1 (fun _ _ => (1 / 2 : ℚ)) (fun _ _ => 1) 0 1
        (1 / 20000) (fun j => j) (fun _ _ => 1) 1 1 (fun _ _ _ _ => 0)
        (fun _ _ _ _ => 0) (fun q => q)).Q 0 k = 1 := by
  have h := q_rows_sum_one 1 1 1 (fun _ _ => (1 / 2 : ℚ)) (fun _ _ => 1) 0 1
    (1 / 20000) (fun j => j) (fun _ _ => 1) 1 1 (fun _ _ _ _ => 0)
    (fun _ _ _ _ => 0) (fun q => q) (by norm_num)
    (by intro i _; norm_num)
  exact h.1 0 (by norm_num)

/-! ## alphaSearch: the returned triple is the best evaluated one -/

/-- The best-tracking invariant: the stored best pair is the output of
`run` at the stored best `alpha`, and its log-likelihood dominates every
evaluated candidate. -/
def BestInv {α : Type} (run : ℚ → α × ℚ) (st : SearchState α) : Prop :=
  st.best = run st.aBest ∧ ∀ a ∈ st.evald, (run a).2 ≤ st.best.2

lemma tryCand_bestInv {α : Type} {run : ℚ → α × ℚ} {st : SearchState α}
    (i : ℕ) (a : ℚ) (h : BestInv run st) : BestInv run (tryCand run i a st) := by
  unfold tryCand
  by_cases himp : st.best.2 < (run a).2
  · rw [if_pos himp]
    refine ⟨rfl, ?_⟩
    intro b hb
    rcases List.mem_append.mp hb with hb | hb
    · exact le_trans (h.2 b hb) (le_of_lt himp)
    · simp only [List.mem_singleton] at hb
      subst hb
      exact le_refl _
  · rw [if_neg himp]
    refine ⟨h.1, ?_⟩
    intro b hb
    rcases List.mem_append.mp hb with hb | hb
    · exact h.2 b hb
    · simp only [List.mem_singleton] at hb
      subst hb
      exact not_lt.mp himp

lemma recenter1_bestInv {α : Type} {run : ℚ → α × ℚ} {st : SearchState α}
    (h : BestInv run st) : BestInv run (recenter1 st) := by
  unfold recenter1
  split <;> exact h

lemma recenterRound_bestInv {α : Type} {run : ℚ → α × ℚ}
    {st : SearchState α} (h : BestInv run st) :
    BestInv run (recenterRound st) := by
  simp only [recenterRound]
  split <;> exact h

lemma searchFirst_bestInv {α : Type} (run : ℚ → α × ℚ) (aEnd : ℚ) :
    BestInv run (searchFirst run aEnd) := by
  unfold searchFirst
  refine recenter1_bestInv (tryCand_bestInv _ _ (tryCand_bestInv _ _ ?_))
  refine ⟨rfl, ?_⟩
  intro b hb
  simp only [List.mem_singleton] at hb
  subst hb
  exact le_refl _

lemma evalRound_bestInv {α : Type} {run : ℚ → α × ℚ} {st : SearchState α}
    (h : BestInv run st) : BestInv run (evalRound run st) := by
  unfold evalRound
  by_cases h0 : st.aMin = 0
  · rw [if_pos h0]
    exact tryCand_bestInv _ _ h
  · rw [if_neg h0]
    by_cases h1 : st.best.2 < (run st.aMin).2
    · rw [if_pos h1]
      refine ⟨rfl, ?_⟩
      intro b hb
      rcases List.mem_append.mp hb with hb | hb
      · exact le_trans (h.2 b hb) (le_of_lt h1)
      · simp only [List.mem_singleton] at hb
        subst hb
        exact le_refl _
    · rw [if_neg h1]
      by_cases h2 : st.best.2 < (run st.aMax).2
      · rw [if_pos h2]
        refine ⟨rfl, ?_⟩
        intro b hb
        rcases List.mem_append.mp hb with hb | hb
        · exact le_trans (h.2 b hb) (le_of_lt h2)
        · simp only [List.mem_cons, List.not_mem_nil, or_false] at hb
          rcases hb with hb | hb <;> subst hb
          · exact le_trans (not_lt.mp h1) (le_of_lt h2)
          · exact le_refl _
      · rw [if_neg h2]
        refine ⟨h.1, ?_⟩
        intro b hb
        rcases List.mem_append.mp hb with hb | hb
        · exact h.2 b hb
        · simp only [List.mem_cons, List.not_mem_nil, or_false] at hb
          rcases hb with hb | hb <;> subst hb
          · exact not_lt.mp h1
          · exact not_lt.mp h2

lemma searchLoop_bestInv {α : Type} {run : ℚ → α × ℚ} (d : ℕ) :
    ∀ st : SearchState α, BestInv run st → BestInv run (searchLoop run d st) := by
  induction d with
  | zero => intro st h; exact h
  | succ d ih =>
    intro st h
    exact ih _ (recenterRound_bestInv (evalRound_bestInv h))

/-- C1: for every data set (any deterministic `run : alpha → (Q, F), L`,
in particular `admixNMF` with all other arguments fixed), every `aEnd`
and every `depth`, the log-likelihood of the returned best is at least
the log-likelihood `run` returned for every alpha value evaluated during
the search (the three first-round points and every depth-round
candidate), and the returned `(Q_best, F_best)` (with the tracked
`L_best`) are exactly the output of the run at the returned `aBest`. -/
theorem alphaSearch_returns_best {α : Type} (run : ℚ → α × ℚ) (aEnd : ℚ)
    (depth : ℕ) :
    (alphaSearch run aEnd depth).best
      = run (alphaSearch run aEnd depth).aBest ∧
    ∀ a ∈ (alphaSearch run aEnd depth).evald,
      (run a).2 ≤ (alphaSearch run aEnd depth).best.2 :=
  searchLoop_bestInv (depth - 1) _ (searchFirst_bestInv run aEnd)

/-- C1, witness: with the identity-likelihood oracle `run a = ((), a)`,
`aEnd = 4`, `depth = 2`, the candidate `3` is evaluated in the depth round
and the final best likelihood dominates it. -/
theorem alphaSearch_returns_best_witness :
    (alphaSearch (fun a => ((), a)) 4 2).best
      = (fun a => (((), a) : Unit × ℚ)) (alphaSearch (fun a => ((), a)) 4 2).aBest ∧
    ((fun a => (((), a) : Unit × ℚ)) 3).2
      ≤ (alphaSearch (fun a => ((), a)) 4 2).best.2 := by
  have h := alphaSearch_returns_best (fun a => (((), a) : Unit × ℚ)) 4 2
  refine ⟨h.1, h.2 3 ?_⟩
  norm_num [alphaSearch, searchLoop, searchRound, evalRound, recenterRound,
    searchFirst, tryCand, recenter1, pick3]

/-! ## alphaSearch: every evaluated alpha is non-negative -/

/-- The interval invariant of the search state: non-negative step,
ordered non-negative interval, the lower bound either collapsed to `0` or
at least one step above `0`, and all evaluated candidates non-negative. -/
def IntervalInv {α : Type} (st : SearchState α) : Prop :=
  0 ≤ st.aStep ∧ 0 ≤ st.aMin ∧ st.aMin ≤ st.aMid ∧ st.aMid ≤ st.aMax ∧
    (st.aMin = 0 ∨ st.aStep ≤ st.aMin) ∧ ∀ a ∈ st.evald, 0 ≤ a

lemma pick3_ge_first {a b c : ℚ} (hab : a ≤ b) (hac : a ≤ c) (i : ℕ) :
    a ≤ pick3 a b c i := by
  unfold pick3
  split_ifs <;> first | exact le_refl a | exact hab | exact hac

lemma pick3_ge_snd {a b c : ℚ} (hbc : b ≤ c) {i : ℕ} (hi : i ≠ 0) :
    b ≤ pick3 a b c i := by
  unfold pick3
  rw [if_neg hi]
  split_ifs
  · exact le_refl b
  · exact hbc

lemma tryCand_intervalInv {α : Type} {run : ℚ → α × ℚ} {st : SearchState α}
    (i : ℕ) {a : ℚ} (ha : 0 ≤ a) (h : IntervalInv st) :
    IntervalInv (tryCand run i a st) := by
  obtain ⟨h1, h2, h3, h4, h5, h6⟩ := h
  have hev : ∀ b ∈ st.evald ++ [a], (0 : ℚ) ≤ b := by
    intro b hb
    rcases List.mem_append.mp hb with hb | hb
    · exact h6 b hb
    · simp only [List.mem_singleton] at hb
      subst hb
      exact ha
  unfold tryCand
  by_cases himp : st.best.2 < (run a).2
  · rw [if_pos himp]
    exact ⟨h1, h2, h3, h4, h5, hev⟩
  · rw [if_neg himp]
    exact ⟨h1, h2, h3, h4, h5, hev⟩

lemma tryCand_fields {α : Type} (run : ℚ → α × ℚ) (i : ℕ) (a : ℚ)
    (st : SearchState α) :
    (tryCand run i a st).aMin = st.aMin ∧
    (tryCand run i a st).aMid = st.aMid ∧
    (tryCand run i a st).aMax = st.aMax ∧
    (tryCand run i a st).aStep = st.aStep := by
  simp only [tryCand]
  split_ifs <;> exact ⟨rfl, rfl, rfl, rfl⟩

lemma recenter1_intervalInv {α : Type} {st : SearchState α}
    (h : IntervalInv st) (hmin0 : st.aMin = 0)
    (hmid : 2 * st.aStep ≤ st.aMid) : IntervalInv (recenter1 st) := by
  obtain ⟨h1, h2, h3, h4, h5, h6⟩ := h
  simp only [recenter1]
  split
  · exact ⟨h1, h2, by rw [hmin0]; linarith, by linarith, Or.inl hmin0, h6⟩
  · rename_i hargL
    have hc : st.aMid ≤ pick3 st.aMin st.aMid st.aMax st.argL :=
      pick3_ge_snd h4 hargL
    refine ⟨?_, ?_, ?_, ?_, Or.inr ?_, h6⟩ <;> dsimp only <;> linarith

lemma searchFirst_intervalInv {α : Type} (run : ℚ → α × ℚ) {aEnd : ℚ}
    (haEnd : 0 ≤ aEnd) : IntervalInv (searchFirst run aEnd) := by
  simp only [searchFirst]
  have h0 : IntervalInv (⟨0, (0 + aEnd) / 2, aEnd, (0 + aEnd) / 4,
      run 0, 0, 0, [0]⟩ : SearchState α) := by
    refine ⟨by linarith, le_refl 0, by linarith, by linarith,
      Or.inl rfl, ?_⟩
    intro a ha
    simp only [List.mem_singleton] at ha
    subst ha
    exact le_refl 0
  have h1 := @tryCand_intervalInv _ run _ 1 ((0 + aEnd) / 2)
    (by linarith) h0
  have h2 := @tryCand_intervalInv _ run _ 2 aEnd haEnd h1
  refine recenter1_intervalInv h2 ?_ ?_
  · obtain ⟨e1, -, -, -⟩ := tryCand_fields run 2 aEnd _
    obtain ⟨f1, -, -, -⟩ := tryCand_fields run 1 ((0 + aEnd) / 2) _
    rw [e1, f1]
  · obtain ⟨-, e2, -, e4⟩ := tryCand_fields run 2 aEnd _
    obtain ⟨-, f2, -, f4⟩ := tryCand_fields run 1 ((0 + aEnd) / 2) _
    rw [e2, f2, e4, f4]
    linarith

lemma evalRound_intervalInv {α : Type} {run : ℚ → α × ℚ}
    {st : SearchState α} (h : IntervalInv st) :
    IntervalInv (evalRound run st) := by
  have hcopy := h
  obtain ⟨h1, h2, h3, h4, h5, h6⟩ := hcopy
  have hev2 : ∀ b ∈ st.evald ++ [st.aMin, st.aMax], (0 : ℚ) ≤ b := by
    intro b hb
    rcases List.mem_append.mp hb with hb | hb
    · exact h6 b hb
    · simp only [List.mem_cons, List.not_mem_nil, or_false] at hb
      rcases hb with hb | hb <;> subst hb
      · exact h2
      · linarith
  unfold evalRound
  by_cases h0 : st.aMin = 0
  · rw [if_pos h0]
    exact tryCand_intervalInv 1 (by linarith) h
  · rw [if_neg h0]
    by_cases hi1 : st.best.2 < (run st.aMin).2
    · rw [if_pos hi1]
      exact ⟨h1, h2, h3, h4, h5, by
        intro b hb
        rcases List.mem_append.mp hb with hb | hb
        · exact h6 b hb
        · simp only [List.mem_singleton] at hb
          subst hb
          exact h2⟩
    · rw [if_neg hi1]
      by_cases hi2 : st.best.2 < (run st.aMax).2
      · rw [if_pos hi2]
        exact ⟨h1, h2, h3, h4, h5, hev2⟩
      · rw [if_neg hi2]
        exact ⟨h1, h2, h3, h4, h5, hev2⟩

lemma recenterRound_intervalInv {α : Type} {st : SearchState α}
    (h : IntervalInv st) : IntervalInv (recenterRound st) := by
  obtain ⟨h1, h2, h3, h4, h5, h6⟩ := h
  simp only [recenterRound]
  split
  · rename_i hmin0
    have hm : st.aMin = 0 := hmin0
    exact ⟨by linarith, h2, by rw [hm]; linarith, by linarith,
      Or.inl hm, h6⟩
  · rename_i hmin0
    have hm : st.aMin ≠ 0 := hmin0
    have h5' : st.aStep ≤ st.aMin := by
      rcases h5 with h | h
      · exact absurd h hm
      · exact h
    have hc : st.aMin ≤ pick3 st.aMin st.aMid st.aMax st.argL :=
      pick3_ge_first h3 (le_trans h3 h4) _
    refine ⟨?_, ?_, ?_, ?_, Or.inr ?_, h6⟩ <;> dsimp only <;> linarith

lemma searchLoop_intervalInv {α : Type} {run : ℚ → α × ℚ} (d : ℕ) :
    ∀ st : SearchState α, IntervalInv st →
      IntervalInv (searchLoop run d st) := by
  induction d with
  | zero => intro st h; exact h
  | succ d ih =>
    intro st h
    exact ih _ (recenterRound_intervalInv (evalRound_intervalInv h))

/-- C9: for every upper bound `aEnd ≥ 0` and every search depth, every
alpha value that `alphaSearch` passes to `admixNMF` (every entry of the
search trace) is non-negative: the recentering rule `aMin = aMid - aStep`
with halved steps keeps the interval inside `[0, ∞)` at every round. -/
theorem alpha_candidates_nonneg {α : Type} (run : ℚ → α × ℚ) (aEnd : ℚ)
    (depth : ℕ) (haEnd : 0 ≤ aEnd) :
    ∀ a ∈ (alphaSearch run aEnd depth).evald, 0 ≤ a :=
  (searchLoop_intervalInv (depth - 1) _
    (searchFirst_intervalInv run haEnd)).2.2.2.2.2

/-- C9, witness: with `aEnd = 4`, `depth = 2` and the identity oracle, the
depth-round candidate `5` is evaluated and is non-negative. -/
theorem alpha_candidates_nonneg_witness :
    (0 : ℚ) ≤ 5 ∧ (5 : ℚ) ∈ (alphaSearch (fun a => (((), a) : Unit × ℚ))
      4 2).evald := by
  have hmem : (5 : ℚ) ∈ (alphaSearch (fun a => (((), a) : Unit × ℚ))
      4 2).evald := by
    norm_num [alphaSearch, searchLoop, searchRound, evalRound,
      recenterRound, searchFirst, tryCand, recenter1, pick3]
  exact ⟨alpha_candidates_nonneg (fun a => (((), a) : Unit × ℚ)) 4 2
    (by norm_num) 5 hmem, hmem⟩

/-! ## Frame property of admixNMF over the buffer store -/

/-- All buffers with id below `nb` (in particular every buffer the caller
allocated before the call) are untouched between `st` and `st'`, and no
id below `nb` has become allocatable. -/
def PBelow (nb : ℕ) (st st' : Store) : Prop :=
  nb ≤ st'.next ∧ ∀ i < nb, st'.mem i = st.mem i

lemma pbelow_refl {nb : ℕ} {st : Store} (h : nb ≤ st.next) :
    PBelow nb st st := ⟨h, fun _ _ => rfl⟩

lemma pbelow_trans {nb : ℕ} {a b c : Store} (h1 : PBelow nb a b)
    (h2 : PBelow nb b c) : PBelow nb a c :=
  ⟨h2.1, fun i hi => (h2.2 i hi).trans (h1.2 i hi)⟩

lemma pbelow_salloc {nb : ℕ} {st : Store} (M : Mat) (h : nb ≤ st.next) :
    PBelow nb st (salloc st M).1 := by
  refine ⟨by simp only [salloc]; omega, ?_⟩
  intro i hi
  simp only [salloc]
  rw [if_neg (by omega)]

lemma pbelow_swrite {nb id : ℕ} {st : Store} (M : Mat) (hid : nb ≤ id)
    (h : nb ≤ st.next) : PBelow nb st (swrite st id M) := by
  refine ⟨h, ?_⟩
  intro i hi
  simp only [swrite]
  rw [if_neg (by omega)]

lemma pbelow_salloc_chain {nb : ℕ} {st st' : Store} (M : Mat)
    (h : PBelow nb st st') : PBelow nb st (salloc st' M).1 :=
  pbelow_trans h (pbelow_salloc M h.1)

/-- Allocating a buffer and then writing it in place touches nothing
below `nb`. -/
lemma pbelow_swrite_fresh {nb : ℕ} {st st' : Store} (M M' : Mat)
    (h : PBelow nb st st') :
    PBelow nb st (swrite (salloc st' M).1 (salloc st' M).2 M') := by
  refine pbelow_trans (pbelow_salloc_chain M h) ?_
  refine pbelow_swrite M' ?_ ?_
  · exact h.1
  · have h1 := h.1
    simp only [salloc]
    omega

/-- A store transformer that touches nothing below `nb` (given that the
store has already allocated past `nb`). -/
def FBelow (nb : ℕ) (f : Store → Store) : Prop :=
  ∀ st, nb ≤ st.next → PBelow nb st (f st)

lemma fbelow_sweepStoreBatch {nb m n K : ℕ} {alpha : ℚ}
    {frob : Mat → Mat → ℕ → ℕ → ℚ} {xsId fId qId bN b : ℕ}
    (hf : nb ≤ fId) (hq : nb ≤ qId) :
    FBelow nb (fun st => sweepStoreBatch m n K alpha frob xsId fId qId bN
      st b) := by
  intro st hst
  unfold sweepStoreBatch
  exact pbelow_trans (pbelow_swrite _ hf hst)
    (pbelow_swrite _ hq hst)

lemma fbelow_foldl {nb : ℕ} {β : Type} (g : Store → β → Store)
    (hg : ∀ b, FBelow nb (fun st => g st b)) (l : List β) :
    FBelow nb (fun st => l.foldl g st) := by
  induction l with
  | nil => intro st hst; exact pbelow_refl hst
  | cons b l ih =>
    intro st hst
    exact pbelow_trans (hg b st hst) (ih (g st b) (hg b st hst).1)

lemma outerStore_pbelow {nb : ℕ} {sweepS : Store → Store}
    {rmse : Mat → Mat → ℕ → ℕ → ℚ} {m K : ℕ} {tole : ℚ} {qId : ℕ}
    (hs : FBelow nb sweepS) :
    ∀ (fuel pqId : ℕ) (st : Store), nb ≤ st.next →
      PBelow nb st (outerStore sweepS rmse m K tole qId fuel pqId st) := by
  intro fuel
  induction fuel with
  | zero => intro pqId st hst; exact pbelow_refl hst
  | succ fuel ih =>
    intro pqId st hst
    show PBelow nb st
      (if rmse ((sweepS st).mem qId) ((sweepS st).mem pqId) m K < tole then
        sweepS st
      else outerStore sweepS rmse m K tole qId fuel
        (salloc (sweepS st) ((sweepS st).mem qId)).2
        (salloc (sweepS st) ((sweepS st).mem qId)).1)
    have h1 : PBelow nb st (sweepS st) := hs st hst
    split
    · exact h1
    · refine pbelow_trans
        (pbelow_salloc_chain ((sweepS st).mem qId) h1) (ih _ _ ?_)
      have h2 := h1.1
      simp only [salloc]
      omega

lemma pbelow_outerStore_chain {nb : ℕ} {st st' : Store}
    {sweepS : Store → Store} {rmse : Mat → Mat → ℕ → ℕ → ℚ} {m K : ℕ}
    {tole : ℚ} {qId fuel pqId : ℕ} (hs : FBelow nb sweepS)
    (h : PBelow nb st st') :
    PBelow nb st (outerStore sweepS rmse m K tole qId fuel pqId st') :=
  pbelow_trans h (outerStore_pbelow hs fuel pqId st' h.1)

/-- C10: `admixNMF` does not modify its caller's arrays: for every
incoming store and every pair of caller buffer ids `xId`, `lId` (the `X`
matrix and the likelihood matrix), the store after the buffer-level model
of the fit holds exactly the original contents at `xId` and `lId` — the
column permutation and un-permutation allocate fresh buffers, every
in-place write (the kernels through the `F[b:bEnd]` views, `Q /= ...`,
`Pi.clip(out=Pi)`) targets a buffer allocated inside the call, and the
likelihood matrix is only read. -/
theorem admixNMF_frame (st0 : Store) (xId lId : ℕ) (m n K : ℕ)
    (alpha : ℚ) (iter : ℕ) (tole : ℚ) (shuffle : ℕ → ℕ) (Q0 : Mat)
    (batch threads : ℕ) (frob rmse : Mat → Mat → ℕ → ℕ → ℚ)
    (flog : ℚ → ℚ) (hx : xId < st0.next) (hl : lId < st0.next) :
    (admixNMFStore st0 xId lId m n K alpha iter tole shuffle Q0 batch
      threads frob rmse flog).1.mem xId = st0.mem xId ∧
    (admixNMFStore st0 xId lId m n K alpha iter tole shuffle Q0 batch
      threads frob rmse flog).1.mem lId = st0.mem lId := by
  have key : PBelow st0.next st0 (admixNMFStore st0 xId lId m n K alpha
      iter tole shuffle Q0 batch threads frob rmse flog).1 := by
    unfold admixNMFStore
    refine pbelow_swrite_fresh _ _ ?_
    refine pbelow_salloc_chain _ ?_
    refine pbelow_salloc_chain _ ?_
    refine pbelow_outerStore_chain ?_ ?_
    · refine fbelow_foldl _ ?_ _
      intro b
      refine fbelow_sweepStoreBatch ?_ ?_
      · show st0.next ≤ st0.next + 1 + 1 + 1
        omega
      · show st0.next ≤ st0.next + 1
        omega
    · refine pbelow_salloc_chain _ ?_
      refine pbelow_salloc_chain _ ?_
      refine pbelow_swrite_fresh _ _ ?_
      refine pbelow_salloc_chain _ ?_
      exact pbelow_refl le_rfl
  exact ⟨key.2 xId hx, key.2 lId hl⟩

/-- C10, witness: a two-buffer store is unchanged at both caller ids by a
concrete fit. -/
theorem admixNMF_frame_witness :
    (admixNMFStore ⟨fun _ => fun _ _ => 0, 2⟩ 0 1 1 1 1 0 1 (1 / 20000)
      (fun j => j) (fun _ _ => 1) 1 1 (fun _ _ _ _ => 0) (fun _ _ _ _ => 0)
      (fun q => q)).1.mem 0 = (fun _ _ => (0 : ℚ)) ∧
    (admixNMFStore ⟨fun _ => fun _ _ => 0, 2⟩ 0 1 1 1 1 0 1 (1 / 20000)
      (fun j => j) (fun _ _ => 1) 1 1 (fun _ _ _ _ => 0) (fun _ _ _ _ => 0)
      (fun q => q)).1.mem 1 = (fun _ _ => (0 : ℚ)) :=
  admixNMF_frame ⟨fun _ => fun _ _ => 0, 2⟩ 0 1 1 1 1 0 1 (1 / 20000)
    (fun j => j) (fun _ _ => 1) 1 1 (fun _ _ _ _ => 0) (fun _ _ _ _ => 0)
    (fun q => q) (by norm_num) (by norm_num)

end PCAngsd
